import Mathlib

/-!
Verification of the WeFlora ingestion core against its design document.

The Python sources under `backend/ingestion/` are shallowly embedded here:

* `chunking.py` — `ChunkingConfig`, `chunk_text` (word windowing with overlap).
  Python's builtin `str.split()` (split on whitespace runs, dropping empty
  pieces), `" ".join(...)` and `str.strip()` are modelled over `List Char` by
  `wordsAux`/`pyWords`, `joinWords` and `pyStrip`.  The `while` loop of
  `chunk_text` is modelled by the fuel-indexed `chunkLoop`; `none` models
  divergence of the loop.
* `supabase_rest.py` — `fetch_rows` (offset/keyset pagination with fallback)
  and `insert_rows` (batched writes).  The remote store is an explicit
  function from page requests to responses; `listServer` is the honest
  PostgREST-style server over a fixed ordered table.
* `embedding.py` — `EmbeddingProvider._embed_mock`; the library functions
  `hashlib.sha256` and `random.Random(seed).uniform` are deterministic and
  are abstracted as function parameters.
* `pipeline.py` — `SpeciesRow`, `build_species_text`, and the per-row
  accumulation of `ingest_species` (`ingest_species_model`), instrumented
  with the list of embedding calls made.
-/

/-- Model of Python `str.split()` tokenisation, accumulator style: `acc`
holds the (reversed) characters of the word currently being read. -/
def wordsAux : List Char → List Char → List (List Char)
  | [], acc => if acc = [] then [] else [acc.reverse]
  | c :: rest, acc =>
    if c.isWhitespace then
      if acc = [] then wordsAux rest [] else acc.reverse :: wordsAux rest []
    else
      wordsAux rest (c :: acc)

/-- Model of `text.split()` from `chunk_text`: whitespace-delimited words of a string
(split on runs of whitespace, no empty words). -/
def pyWords (s : String) : List (List Char) := wordsAux s.toList []

/-- Python `" ".join(words)` over character lists. -/
def joinWords : List (List Char) → List Char
  | [] => []
  | [w] => w
  | w :: ws => w ++ ' ' :: joinWords ws

/-- Python `str.strip()`: remove leading and trailing whitespace. -/
def pyStrip (l : List Char) : List Char :=
  ((l.dropWhile Char.isWhitespace).reverse.dropWhile Char.isWhitespace).reverse

/-- A word as produced by `str.split()`: non-empty and whitespace-free. -/
def goodWord (w : List Char) : Prop :=
  w ≠ [] ∧ ∀ c ∈ w, c.isWhitespace = false

instance : DecidablePred goodWord := fun w => by unfold goodWord; infer_instance

/-- Embedding of `ChunkingConfig` from `chunking.py` (a plain frozen dataclass: no
validation is performed on construction). -/
structure ChunkingConfig where
  max_tokens : Nat
  overlap : Nat
deriving DecidableEq

/-- Python slice `words[start:end]` (for `0 ≤ start`, `0 ≤ end`). -/
def winSlice (words : List (List Char)) (start e : Nat) : List (List Char) :=
  (words.drop start).take (e - start)

/-- The `while start < len(words)` loop of `chunk_text`, fuel-indexed;
`none` models non-termination of the source loop. -/
def chunkLoop (config : ChunkingConfig) (words : List (List Char)) :
    Nat → Nat → List String → Option (List String)
  | 0, _, _ => none
  | fuel + 1, start, chunks =>
    if start < words.length then
      let e := min (start + config.max_tokens) words.length
      let chunkC := pyStrip (joinWords (winSlice words start e))
      let chunks2 := if chunkC ≠ [] then chunks ++ [String.mk chunkC] else chunks
      if e = words.length then some chunks2
      else chunkLoop config words fuel (max (e - config.overlap) 0) chunks2
    else some chunks

/-- Embedding of `chunk_text` from `chunking.py`.  Fuel `words.length + 1` is enough for
any terminating run of the source loop (each iteration either finishes or
strictly advances `start`), so `none` is returned exactly when the source
loop diverges. -/
def chunk_text (text : String) (config : ChunkingConfig) : Option (List String) :=
  let words := pyWords text
  if words = [] then some []
  else chunkLoop config words (words.length + 1) 0 []

lemma wordsAux_nil (acc : List Char) :
    wordsAux [] acc = if acc = [] then [] else [acc.reverse] := rfl

lemma wordsAux_cons (c : Char) (l acc : List Char) :
    wordsAux (c :: l) acc =
      if c.isWhitespace then
        (if acc = [] then wordsAux l [] else acc.reverse :: wordsAux l [])
      else wordsAux l (c :: acc) := rfl

lemma wordsAux_good :
    ∀ (l acc : List Char), (∀ c ∈ acc, c.isWhitespace = false) →
      ∀ w ∈ wordsAux l acc, goodWord w := by
  intro l
  induction l with
  | nil =>
    intro acc hacc w hw
    unfold wordsAux at hw
    split at hw
    · simp at hw
    · rename_i hne
      simp only [List.mem_singleton] at hw
      subst hw
      exact ⟨by simpa using hne, fun c hc => hacc c (List.mem_reverse.mp hc)⟩
  | cons c rest ih =>
    intro acc hacc w hw
    unfold wordsAux at hw
    by_cases hc : c.isWhitespace
    · rw [if_pos hc] at hw
      split at hw
      · exact ih [] (by simp) w hw
      · rename_i hne
        rcases List.mem_cons.mp hw with h | h
        · subst h
          exact ⟨by simpa using hne, fun x hx => hacc x (List.mem_reverse.mp hx)⟩
        · exact ih [] (by simp) w h
    · rw [if_neg hc] at hw
      refine ih (c :: acc) ?_ w hw
      intro x hx
      rcases List.mem_cons.mp hx with h | h
      · subst h; simpa using hc
      · exact hacc x h

lemma wordsAux_word_append (w : List Char) (hw : ∀ c ∈ w, c.isWhitespace = false) :
    ∀ (rest acc : List Char), wordsAux (w ++ rest) acc = wordsAux rest (w.reverse ++ acc) := by
  induction w with
  | nil => intro rest acc; simp
  | cons c t ih =>
    intro rest acc
    have hc : c.isWhitespace = false := hw c (by simp)
    have step : wordsAux (c :: (t ++ rest)) acc = wordsAux (t ++ rest) (c :: acc) := by
      rw [wordsAux_cons, if_neg (by simp [hc])]
    simp only [List.cons_append, step]
    rw [ih (fun x hx => hw x (by simp [hx])) rest (c :: acc)]
    simp

lemma wordsAux_joinWords :
    ∀ (ws : List (List Char)), (∀ w ∈ ws, goodWord w) → wordsAux (joinWords ws) [] = ws := by
  intro ws
  induction ws with
  | nil => intro _; simp [wordsAux, joinWords]
  | cons w ws ih =>
    intro hgood
    obtain ⟨hne, hchars⟩ := hgood w (by simp)
    cases ws with
    | nil =>
      have h0 := wordsAux_word_append w hchars [] []
      simp only [List.append_nil] at h0
      simp only [joinWords]
      rw [h0, wordsAux_nil, if_neg (by simp [hne])]
      simp
    | cons w2 ws2 =>
      have hj : joinWords (w :: w2 :: ws2) = w ++ ' ' :: joinWords (w2 :: ws2) := by
        simp [joinWords]
      rw [hj, wordsAux_word_append w hchars]
      rw [wordsAux_cons, if_pos (show (' ').isWhitespace = true from rfl),
        if_neg (by simp [hne])]
      rw [ih (fun x hx => hgood x (by simp [hx]))]
      simp

lemma joinWords_facts :
    ∀ (ws : List (List Char)), (∀ w ∈ ws, goodWord w) → ws ≠ [] →
      joinWords ws ≠ [] ∧
        (∀ c, (joinWords ws).head? = some c → c.isWhitespace = false) ∧
        (∀ c, (joinWords ws).getLast? = some c → c.isWhitespace = false) := by
  intro ws
  induction ws with
  | nil => intro _ h; exact absurd rfl h
  | cons w ws ih =>
    intro hgood _
    obtain ⟨hne, hchars⟩ := hgood w (by simp)
    cases ws with
    | nil =>
      refine ⟨by simpa [joinWords] using hne, ?_, ?_⟩
      · intro c hc
        exact hchars c (List.mem_of_mem_head? (by simpa [joinWords] using hc))
      · intro c hc
        simp only [joinWords] at hc
        have : c ∈ w := by
          rw [← List.head?_reverse] at hc
          simpa using List.mem_of_mem_head? hc
        exact hchars c this
    | cons w2 ws2 =>
      obtain ⟨ihne, _, ihlast⟩ :=
        ih (fun x hx => hgood x (by simp [hx])) (by simp)
      have hj : joinWords (w :: w2 :: ws2) = w ++ ' ' :: joinWords (w2 :: ws2) := by
        simp [joinWords]
      refine ⟨by simp [hj, hne], ?_, ?_⟩
      · intro c hc
        rw [hj] at hc
        obtain ⟨c0, t, rfl⟩ : ∃ c0 t, w = c0 :: t := by
          cases w with
          | nil => exact absurd rfl hne
          | cons c0 t => exact ⟨c0, t, rfl⟩
        simp only [List.cons_append, List.head?_cons, Option.some.injEq] at hc
        subst hc
        exact hchars c0 (by simp)
      · intro c hc
        rw [hj, List.getLast?_append] at hc
        have h2 : (' ' :: joinWords (w2 :: ws2)).getLast? = (joinWords (w2 :: ws2)).getLast? := by
          cases hjw : joinWords (w2 :: ws2) with
          | nil => exact absurd hjw ihne
          | cons a t => simp [List.getLast?_cons_cons]
        rw [h2] at hc
        cases hlast : (joinWords (w2 :: ws2)).getLast? with
        | none =>
          rw [hlast] at hc
          simp only [Option.none_or] at hc
          have : c ∈ w := by
            rw [← List.head?_reverse] at hc
            simpa using List.mem_of_mem_head? hc
          exact hchars c this
        | some d =>
          rw [hlast] at hc
          simp only [Option.or, Option.some.injEq] at hc
          subst hc
          exact ihlast d hlast

lemma dropWhile_eq_self_of_head (p : Char → Bool) (l : List Char)
    (h : ∀ c, l.head? = some c → p c = false) : l.dropWhile p = l := by
  cases l with
  | nil => rfl
  | cons c t => rw [List.dropWhile_cons, h c rfl]; simp

lemma pyStrip_joinWords (ws : List (List Char)) (h : ∀ w ∈ ws, goodWord w) (hne : ws ≠ []) :
    pyStrip (joinWords ws) = joinWords ws := by
  obtain ⟨_, h2, h3⟩ := joinWords_facts ws h hne
  unfold pyStrip
  rw [dropWhile_eq_self_of_head _ _ h2]
  rw [dropWhile_eq_self_of_head _ _ (fun c hc => h3 c (by rwa [List.head?_reverse] at hc))]
  simp

/-- The word windows the `chunk_text` loop walks through starting at
`start`, assuming the §3 policy invariant `overlap < max_tokens`. -/
def windows (config : ChunkingConfig) (words : List (List Char)) (start : Nat) :
    List (List (List Char)) :=
  if h : config.overlap < config.max_tokens ∧ start < words.length then
    if he : min (start + config.max_tokens) words.length = words.length then
      [winSlice words start (min (start + config.max_tokens) words.length)]
    else
      winSlice words start (min (start + config.max_tokens) words.length) ::
        windows config words (min (start + config.max_tokens) words.length - config.overlap)
  else []
termination_by words.length - start
decreasing_by omega

lemma winSlice_length (words : List (List Char)) (start e : Nat)
    (he : e ≤ words.length) : (winSlice words start e).length = e - start := by
  unfold winSlice
  simp only [List.length_take, List.length_drop]
  omega

lemma winSlice_mem {words : List (List Char)} {start e : Nat} :
    ∀ w ∈ winSlice words start e, w ∈ words := by
  intro w hw
  exact List.mem_of_mem_drop (List.mem_of_mem_take hw)

lemma windows_props (config : ChunkingConfig) (words : List (List Char))
    (hw : ∀ w ∈ words, goodWord w) :
    ∀ n start, words.length - start ≤ n →
      ∀ w ∈ windows config words start,
        (∀ x ∈ w, goodWord x) ∧ 1 ≤ w.length ∧ w.length ≤ config.max_tokens := by
  intro n
  induction n with
  | zero =>
    intro start hn w hmem
    rw [windows] at hmem
    split at hmem
    · rename_i h
      omega
    · simp at hmem
  | succ n ih =>
    intro start hn w hmem
    rw [windows] at hmem
    split at hmem
    · rename_i h
      have hlen : (winSlice words start (min (start + config.max_tokens) words.length)).length
          = min (start + config.max_tokens) words.length - start :=
        winSlice_length words start _ (by omega)
      split at hmem
      · rename_i he
        simp only [List.mem_singleton] at hmem
        subst hmem
        exact ⟨fun x hx => hw x (winSlice_mem x hx), by omega, by omega⟩
      · rename_i he
        rcases List.mem_cons.mp hmem with hmem | hmem
        · subst hmem
          exact ⟨fun x hx => hw x (winSlice_mem x hx), by omega, by omega⟩
        · exact ih _ (by omega) w hmem
    · simp at hmem

lemma chunkLoop_eq (config : ChunkingConfig) (words : List (List Char))
    (hw : ∀ w ∈ words, goodWord w) (ho : config.overlap < config.max_tokens) :
    ∀ fuel start chunks, start < words.length → words.length - start ≤ fuel →
      chunkLoop config words fuel start chunks =
        some (chunks ++ (windows config words start).map (fun w => String.mk (joinWords w))) := by
  intro fuel
  induction fuel with
  | zero => intro start chunks hs hf; omega
  | succ fuel ih =>
    intro start chunks hs hf
    have hwin : ∀ x ∈ winSlice words start (min (start + config.max_tokens) words.length),
        goodWord x := fun x hx => hw x (winSlice_mem x hx)
    have hlen : (winSlice words start (min (start + config.max_tokens) words.length)).length
        = min (start + config.max_tokens) words.length - start :=
      winSlice_length words start _ (by omega)
    have hwne : winSlice words start (min (start + config.max_tokens) words.length) ≠ [] := by
      intro hcon
      rw [hcon] at hlen
      simp only [List.length_nil] at hlen
      omega
    have hstrip : pyStrip (joinWords (winSlice words start
        (min (start + config.max_tokens) words.length))) =
        joinWords (winSlice words start (min (start + config.max_tokens) words.length)) :=
      pyStrip_joinWords _ hwin hwne
    have hjne : joinWords (winSlice words start (min (start + config.max_tokens) words.length))
        ≠ [] := (joinWords_facts _ hwin hwne).1
    rw [chunkLoop]
    rw [if_pos hs]
    simp only [hstrip]
    rw [if_pos hjne]
    by_cases he : min (start + config.max_tokens) words.length = words.length
    · rw [if_pos he]
      rw [windows, dif_pos ⟨ho, hs⟩, dif_pos he]
      simp
    · rw [if_neg he]
      have hnext : start + config.max_tokens < words.length := by omega
      have hrw : max (min (start + config.max_tokens) words.length - config.overlap) 0
          = min (start + config.max_tokens) words.length - config.overlap := by omega
      rw [hrw]
      rw [ih (min (start + config.max_tokens) words.length - config.overlap)
        (chunks ++ [String.mk (joinWords (winSlice words start
          (min (start + config.max_tokens) words.length)))])
        (by omega) (by omega)]
      conv_rhs => rw [windows]
      rw [dif_pos (show config.overlap < config.max_tokens ∧ start < words.length from ⟨ho, hs⟩),
        dif_neg he]
      simp

lemma pyWords_good (text : String) : ∀ w ∈ pyWords text, goodWord w :=
  wordsAux_good text.toList [] (by simp)

lemma chunk_text_empty (text : String) (config : ChunkingConfig)
    (h : pyWords text = []) : chunk_text text config = some [] := by
  unfold chunk_text
  rw [if_pos h]

lemma chunk_text_windows (text : String) (config : ChunkingConfig)
    (ho : config.overlap < config.max_tokens) (h : pyWords text ≠ []) :
    chunk_text text config =
      some ((windows config (pyWords text) 0).map (fun w => String.mk (joinWords w))) := by
  unfold chunk_text
  rw [if_neg h]
  have hlen : 0 < (pyWords text).length := List.length_pos.mpr h
  rw [chunkLoop_eq config (pyWords text) (pyWords_good text) ho _ 0 [] hlen (by omega)]
  simp

lemma windows_length (config : ChunkingConfig) (words : List (List Char))
    (ho : config.overlap < config.max_tokens) :
    ∀ n start, words.length - start ≤ n → start < words.length →
      (windows config words start).length =
        if words.length - start ≤ config.max_tokens then 1
        else (words.length - start - config.overlap + (config.max_tokens - config.overlap) - 1)
          / (config.max_tokens - config.overlap) := by
  intro n
  induction n with
  | zero => intro start h1 h2; omega
  | succ n ih =>
    intro start h1 h2
    rw [windows, dif_pos ⟨ho, h2⟩]
    by_cases he : min (start + config.max_tokens) words.length = words.length
    · rw [dif_pos he, if_pos (by omega)]
      simp
    · rw [dif_neg he]
      have hnext : start + config.max_tokens < words.length := by omega
      simp only [List.length_cons]
      rw [ih (min (start + config.max_tokens) words.length - config.overlap)
        (by omega) (by omega)]
      rw [if_neg (show ¬ words.length - start ≤ config.max_tokens by omega)]
      by_cases hcase : words.length
          - (min (start + config.max_tokens) words.length - config.overlap)
          ≤ config.max_tokens
      · rw [if_pos hcase]
        exact (Nat.div_eq_of_lt_le (by omega) (by omega)).symm
      · rw [if_neg hcase]
        have e1 : words.length - (min (start + config.max_tokens) words.length - config.overlap)
              - config.overlap + (config.max_tokens - config.overlap) - 1
            = words.length - start - config.overlap - 1 := by omega
        have e2 : words.length - start - config.overlap + (config.max_tokens - config.overlap) - 1
            = (words.length - start - config.overlap - 1)
              + (config.max_tokens - config.overlap) := by omega
        rw [e1, e2, Nat.add_div_right _ (by omega)]

/-- C3: with the canonical policy `max_tokens = 400, overlap = 40`, the
number of chunks returned by `chunk_text` equals
`ceil((wordcount - 40) / 360)` when `wordcount > 400`, equals `1` when
`0 < wordcount ≤ 400`, and equals `0` when `wordcount = 0`, where
`wordcount` is the number of whitespace-delimited words of the text. -/
theorem chunk_text_count_canonical (text : String) :
    (chunk_text text ⟨400, 40⟩).map List.length =
      some (if (pyWords text).length = 0 then 0
        else if (pyWords text).length ≤ 400 then 1
        else ((pyWords text).length - 40 + 360 - 1) / 360) := by
  by_cases h : pyWords text = []
  · rw [chunk_text_empty text _ h, h]
    simp
  · have hlen : 0 < (pyWords text).length := List.length_pos.mpr h
    rw [chunk_text_windows text _ (by norm_num) h]
    simp only [Option.map_some', List.length_map]
    rw [windows_length _ _ (by norm_num) (pyWords text).length 0 (by omega) hlen]
    have hm : (⟨400, 40⟩ : ChunkingConfig).max_tokens = 400 := rfl
    have hov : (⟨400, 40⟩ : ChunkingConfig).overlap = 40 := rfl
    rw [hm, hov, if_neg (show ¬ (pyWords text).length = 0 by omega)]
    simp only [Nat.sub_zero]

lemma windows_drop_join (config : ChunkingConfig) (words : List (List Char))
    (ho : config.overlap < config.max_tokens) :
    ∀ n start, words.length - start ≤ n → start < words.length →
      ((windows config words start).map (fun w => w.drop config.overlap)).flatten
        = words.drop (start + config.overlap) := by
  intro n
  induction n with
  | zero => intro start h1 h2; omega
  | succ n ih =>
    intro start h1 h2
    rw [windows, dif_pos ⟨ho, h2⟩]
    by_cases he : min (start + config.max_tokens) words.length = words.length
    · rw [dif_pos he]
      have hsl : winSlice words start (min (start + config.max_tokens) words.length)
          = words.drop start := by
        unfold winSlice
        rw [he]
        exact List.take_of_length_le (by simp)
      simp only [List.map_cons, List.map_nil, List.flatten_cons, List.flatten_nil, List.append_nil,
        hsl, List.drop_drop]
    · rw [dif_neg he]
      have hmin : min (start + config.max_tokens) words.length = start + config.max_tokens := by
        omega
      simp only [List.map_cons, List.flatten_cons]
      rw [ih (min (start + config.max_tokens) words.length - config.overlap)
        (by omega) (by omega)]
      rw [hmin]
      have hsl : (winSlice words start (start + config.max_tokens)).drop config.overlap
          = (words.drop (start + config.overlap)).take
              (config.max_tokens - config.overlap) := by
        unfold winSlice
        rw [List.drop_take, List.drop_drop]
        congr 1
        omega
      rw [hsl]
      have harg : start + config.max_tokens - config.overlap + config.overlap
          = start + config.overlap + (config.max_tokens - config.overlap) := by omega
      rw [harg,
        ← List.drop_drop (config.max_tokens - config.overlap) (start + config.overlap) words,
        List.take_append_drop]

lemma windows_cons_recon (config : ChunkingConfig) (words : List (List Char))
    (ho : config.overlap < config.max_tokens) (start : Nat) (hs : start < words.length)
    (w0 : List (List Char)) (rest : List (List (List Char)))
    (hw : windows config words start = w0 :: rest) :
    w0 ++ (rest.map (fun w => w.drop config.overlap)).flatten = words.drop start := by
  rw [windows, dif_pos ⟨ho, hs⟩] at hw
  by_cases he : min (start + config.max_tokens) words.length = words.length
  · rw [dif_pos he] at hw
    injection hw with ha hb
    rw [← ha, ← hb]
    unfold winSlice
    rw [he]
    simp [List.take_of_length_le]
  · rw [dif_neg he] at hw
    have hmin : min (start + config.max_tokens) words.length = start + config.max_tokens := by
      omega
    injection hw with ha hb
    rw [← ha, ← hb]
    rw [windows_drop_join config words ho words.length
      (min (start + config.max_tokens) words.length - config.overlap) (by omega) (by omega)]
    rw [hmin]
    have e1 : start + config.max_tokens - config.overlap + config.overlap
        = start + config.max_tokens := by omega
    rw [e1]
    unfold winSlice
    have e2 : start + config.max_tokens - start = config.max_tokens := by omega
    rw [e2, ← List.drop_drop config.max_tokens start words, List.take_append_drop]

/-- The whitespace-delimited word sequence of a chunk string (Python
`chunk.split()`). -/
def wordsOfStr (s : String) : List (List Char) := wordsAux s.toList []

lemma wordsOfStr_mk_joinWords (w : List (List Char)) (h : ∀ x ∈ w, goodWord x) :
    wordsOfStr (String.mk (joinWords w)) = w :=
  wordsAux_joinWords w h

lemma windows_ne_nil (config : ChunkingConfig) (words : List (List Char))
    (ho : config.overlap < config.max_tokens) (start : Nat) (hs : start < words.length) :
    windows config words start ≠ [] := by
  rw [windows, dif_pos ⟨ho, hs⟩]
  split <;> simp

/-- The word sequence reassembled from a chunk list: the first chunk's words
followed by each later chunk's words after its first `overlap` words. -/
def reconWords (config : ChunkingConfig) : List String → List (List Char)
  | [] => []
  | c :: rest =>
    wordsOfStr c ++ (rest.map (fun c2 => (wordsOfStr c2).drop config.overlap)).flatten

/-- C4: for every text and policy with `overlap < max_tokens`, concatenating
the first chunk's word sequence with each later chunk's non-overlapping
suffix (its words after the first `overlap` words) reconstructs exactly the
whitespace-split word sequence of the original text. -/
theorem chunk_text_reconstructs (text : String) (config : ChunkingConfig)
    (ho : config.overlap < config.max_tokens) :
    ∃ chunks, chunk_text text config = some chunks ∧
      reconWords config chunks = pyWords text := by
  by_cases h : pyWords text = []
  · exact ⟨[], chunk_text_empty _ _ h, by rw [h]; rfl⟩
  · refine ⟨_, chunk_text_windows text config ho h, ?_⟩
    have hlen : 0 < (pyWords text).length := List.length_pos.mpr h
    obtain ⟨w0, rest, hw⟩ : ∃ w0 rest, windows config (pyWords text) 0 = w0 :: rest := by
      cases hcase : windows config (pyWords text) 0 with
      | nil => exact absurd hcase (windows_ne_nil config (pyWords text) ho 0 hlen)
      | cons a b => exact ⟨a, b, rfl⟩
    have hprops := windows_props config (pyWords text) (pyWords_good text)
      (pyWords text).length 0 (by omega)
    have hg0 : ∀ x ∈ w0, goodWord x := by
      intro x hx
      exact (hprops w0 (by rw [hw]; simp)).1 x hx
    rw [hw]
    simp only [List.map_cons, reconWords]
    rw [wordsOfStr_mk_joinWords w0 hg0]
    have hmap : rest.map ((fun c2 => (wordsOfStr c2).drop config.overlap) ∘
        (fun w => String.mk (joinWords w))) = rest.map (fun w => w.drop config.overlap) := by
      apply List.map_congr_left
      intro w hwmem
      have hgw : ∀ x ∈ w, goodWord x :=
        (hprops w (by rw [hw]; exact List.mem_cons_of_mem _ hwmem)).1
      simp only [Function.comp_apply]
      rw [wordsOfStr_mk_joinWords w hgw]
    rw [List.map_map, hmap]
    have := windows_cons_recon config (pyWords text) ho 0 hlen w0 rest hw
    simpa using this

/-- Witness for `chunk_text_reconstructs` at a concrete text and policy. -/
theorem chunk_text_reconstructs_witness :
    (⟨2, 1⟩ : ChunkingConfig).overlap < (⟨2, 1⟩ : ChunkingConfig).max_tokens ∧
      ∃ chunks, chunk_text "a b c d e" ⟨2, 1⟩ = some chunks ∧
        reconWords ⟨2, 1⟩ chunks = pyWords "a b c d e" :=
  ⟨by decide, chunk_text_reconstructs "a b c d e" ⟨2, 1⟩ (by decide)⟩

/-- C7: under the precondition `0 < max_tokens` and `0 ≤ overlap < max_tokens`,
`chunk_text` terminates for every input text: each loop step advances the
window start by `max_tokens - overlap > 0` words and the loop stops when a
window reaches the end of the word sequence, so the fuelled loop completes. -/
theorem chunk_text_terminates (text : String) (config : ChunkingConfig)
    (hm : 0 < config.max_tokens) (ho : config.overlap < config.max_tokens) :
    (chunk_text text config).isSome := by
  clear hm
  by_cases h : pyWords text = []
  · rw [chunk_text_empty text config h]; rfl
  · rw [chunk_text_windows text config ho h]; rfl

/-- Witness for `chunk_text_terminates` at a concrete text and policy. -/
theorem chunk_text_terminates_witness :
    0 < (⟨3, 1⟩ : ChunkingConfig).max_tokens ∧
      (⟨3, 1⟩ : ChunkingConfig).overlap < (⟨3, 1⟩ : ChunkingConfig).max_tokens ∧
      (chunk_text "a b c d" ⟨3, 1⟩).isSome :=
  ⟨by decide, by decide, chunk_text_terminates "a b c d" ⟨3, 1⟩ (by decide) (by decide)⟩

/-- C6 (evaluation at the failing input): `ChunkingConfig` performs no
validation, so the configuration `max_tokens = 2, overlap = 2` (which the
design says must be rejected) is accepted, and `chunk_text` on the 3-word
text `"a b c"` then never terminates: `chunkLoop` returns `none` at
`start = 0` for every amount of fuel, and `chunk_text` returns `none`. -/
theorem chunking_config_not_validated :
    (∀ fuel chunks, chunkLoop ⟨2, 2⟩ [['a'], ['b'], ['c']] fuel 0 chunks = none) ∧
      chunk_text "a b c" ⟨2, 2⟩ = none := by
  constructor
  · intro fuel
    induction fuel with
    | zero => intro chunks; rfl
    | succ n ih =>
      intro chunks
      have step : chunkLoop ⟨2, 2⟩ [['a'], ['b'], ['c']] (n + 1) 0 chunks
          = chunkLoop ⟨2, 2⟩ [['a'], ['b'], ['c']] n 0 (chunks ++ [String.mk ['a', ' ', 'b']]) :=
        rfl
      rw [step]
      exact ih _
  · decide

/-- A JSON row returned by PostgREST: an association list from column names
to (integer) values. -/
def Row : Type := List (String × Int)

instance : DecidableEq Row := by unfold Row; infer_instance

/-- Python `row.get(col)` on a parsed JSON row: `none` when the column is
absent. -/
def rowGet (r : Row) (c : String) : Option Int :=
  (r.find? (fun p => p.1 == c)).map (fun p => p.2)

/-- Model of `order.split(".", maxsplit=1)[0] if order else ""` from `fetch_rows`. -/
def orderColumn (order : String) : String :=
  if order = "" then "" else String.mk (order.toList.takeWhile (fun c => c != '.'))

/-- Model of `order.endswith(".desc") if order else False` from `fetch_rows`. -/
def orderIsDesc (order : String) : Bool :=
  if order = "" then false else ['.', 'd', 'e', 's', 'c'].isSuffixOf order.toList

/-- The query parameters of one paginated GET issued by `fetch_rows`: the
`limit`, the optional keyset filter `order_column=(gt|lt).last_value`
(`true` = `lt`, for descending order), and the optional `offset`. -/
structure PageRequest where
  limit : Nat
  keyset : Option (Bool × Int)
  offset : Option Nat

/-- One page response: the JSON row list and the total row count parsed from
the `Content-Range` header (`none` when missing or malformed). -/
structure Response where
  batch : List Row
  total : Option Nat

/-- The `if total_rows is None:` Content-Range block of `fetch_rows`: adopt
the server-reported total only when it exceeds the rows seen so far
(`seen = start + len(batch)`). -/
def totalUpdate (total_rows resp_total : Option Nat) (seen : Nat) : Option Nat :=
  match total_rows, resp_total with
  | some t, _ => some t
  | none, some t => if seen < t then some t else none
  | none, none => none

/-- One iteration of the `while True:` body of `fetch_rows`; `recur` is the
next loop iteration, applied to the updated state (`use_keyset`, `all_rows`,
`start`, `last_value`, `previous_last_value`, `remaining`, `total_rows`,
request count). -/
def fetchBody (server : PageRequest → Response) (page_size : Nat) (order_column : String)
    (is_desc : Bool)
    (recur : Bool → List Row → Nat → Option Int → Option Int → Option Nat → Option Nat →
      Nat → Option (List Row × Nat))
    (use_keyset : Bool) (all_rows : List Row) (start : Nat)
    (last_value previous_last_value : Option Int) (remaining total_rows : Option Nat)
    (reqs : Nat) : Option (List Row × Nat) :=
  let lim : Nat := match remaining with
    | none => page_size
    | some r => min page_size r
  let req : PageRequest :=
    if use_keyset = true ∧ order_column ≠ "" then
      { limit := lim, keyset := last_value.map (fun v => (is_desc, v)), offset := none }
    else
      { limit := lim, keyset := none, offset := some start }
  let batch := (server req).batch
  if batch = [] then some (all_rows, reqs + 1)
  else
    let all2 := all_rows ++ batch
    let total2 : Option Nat := totalUpdate total_rows (server req).total (start + batch.length)
    let remaining2 := remaining.map (fun r => r - batch.length)
    if remaining2 = some 0 then some (all2, reqs + 1)
    else if use_keyset = true ∧ order_column ≠ "" then
      match (batch.getLast?).bind (fun r => rowGet r order_column) with
      | none => recur false all2 all2.length none previous_last_value remaining2 total2 (reqs + 1)
      | some v =>
        if some v = previous_last_value then
          recur false all2 all2.length (some v) previous_last_value remaining2 total2 (reqs + 1)
        else
          recur use_keyset all2 start (some v) (some v) remaining2 total2 (reqs + 1)
    else
      match total2 with
      | some t =>
        if t ≤ start + page_size then some (all2, reqs + 1)
        else
          recur use_keyset all2 (start + page_size) last_value previous_last_value remaining2
            total2 (reqs + 1)
      | none =>
        if batch.length < page_size then some (all2, reqs + 1)
        else
          recur use_keyset all2 (start + page_size) last_value previous_last_value remaining2
            total2 (reqs + 1)

/-- The `while True:` page loop of `fetch_rows`, fuel-indexed (`none` means
the fuel ran out; any terminating source run is reproduced with enough
fuel).  The final `Nat` accumulates the number of issued requests. -/
def fetchLoop (server : PageRequest → Response) (page_size : Nat) (order_column : String)
    (is_desc : Bool) (fuel : Nat) (use_keyset : Bool) (all_rows : List Row) (start : Nat)
    (last_value previous_last_value : Option Int) (remaining total_rows : Option Nat)
    (reqs : Nat) : Option (List Row × Nat) :=
  match fuel with
  | 0 => none
  | fuel + 1 =>
    fetchBody server page_size order_column is_desc
      (fetchLoop server page_size order_column is_desc fuel)
      use_keyset all_rows start last_value previous_last_value remaining total_rows reqs

/-- Embedding of `fetch_rows` from `supabase_rest.py`, with the remote store abstracted
as the function `server` and the unbounded `while True:` loop given explicit
`fuel`.  Returns the collected rows and the number of issued requests. -/
def fetch_rows (server : PageRequest → Response) (page_size : Nat) (order : String)
    (use_keyset : Bool) (limit : Option Nat) (fuel : Nat) : Option (List Row × Nat) :=
  fetchLoop server page_size (orderColumn order) (orderIsDesc order) fuel use_keyset
    [] 0 none none limit none 0

/-- An honest PostgREST-style server over the fixed `table` (stored already
sorted in the requested order): it applies the keyset range filter, then
`offset`, then `limit`, and reports the filtered total via `Content-Range`
(the `Prefer: count=exact` header is always sent by `fetch_rows`). -/
def listServer (col : String) (table : List Row) (req : PageRequest) : Response :=
  let base := match req.keyset with
    | none => table
    | some (d, v) =>
      table.filter (fun r => match rowGet r col with
        | some x => if d then decide (x < v) else decide (v < x)
        | none => false)
  let page := match req.offset with
    | none => base.take req.limit
    | some o => (base.drop o).take req.limit
  { batch := page, total := some base.length }

/-- Number of requests an offset-mode `fetch_rows` run still issues from
offset `start` with total-count state `t`, against an honest server over a
table of `L` rows. -/
def offsetReqsFrom (L page_size start : Nat) : Option Nat → Nat
  | some _ => (L - start + page_size - 1) / page_size
  | none =>
    if L ≤ start then 1
    else if L - start < page_size then 1
    else if L - start = page_size then 2
    else (L - start + page_size - 1) / page_size

/-- Total number of requests an offset-mode `fetch_rows` run issues against
an honest server over a table of `L` rows. -/
def offsetRequestCount (L page_size : Nat) : Nat :=
  offsetReqsFrom L page_size 0 none

lemma totalUpdate_none_some (t seen : Nat) :
    totalUpdate none (some t) seen = if seen < t then some t else none := rfl

lemma totalUpdate_some (t : Nat) (r : Option Nat) (seen : Nat) :
    totalUpdate (some t) r seen = some t := rfl

lemma fetchLoop_offset (table : List Row) (col oc : String) (d : Bool) (page_size : Nat)
    (hps : 0 < page_size) :
    ∀ fuel start t reqs,
      (t = none ∨ t = some table.length) →
      (t = some table.length → start < table.length) →
      (t = none → start ≤ table.length) →
      table.length + 2 ≤ start + fuel →
      fetchLoop (listServer col table) page_size oc d fuel false (table.take start) start
          none none none t reqs
        = some (table, reqs + offsetReqsFrom table.length page_size start t) := by
  intro fuel
  induction fuel with
  | zero =>
    intro start t reqs ht hts htn hf
    rcases ht with rfl | rfl
    · have := htn rfl; omega
    · have := hts rfl; omega
  | succ fuel ih =>
    intro start t reqs ht hts htn hf
    have hcond : ¬(false = true ∧ oc ≠ "") := by simp
    rw [fetchLoop, fetchBody.eq_def]
    simp only [if_neg hcond, listServer, Option.map_none']
    have hblen : (List.take page_size (List.drop start table)).length
        = min page_size (table.length - start) := by
      simp
    by_cases hstart : table.length ≤ start
    · have hdrop : List.drop start table = [] := List.drop_of_length_le hstart
      rw [hdrop, if_pos (List.take_nil)]
      rcases ht with rfl | rfl
      · rw [List.take_of_length_le hstart]
        have hcnt : offsetReqsFrom table.length page_size start none = 1 := by
          unfold offsetReqsFrom
          rw [if_pos hstart]
        rw [hcnt]
      · exact absurd (hts rfl) (by omega)
    · push_neg at hstart
      have hbne : List.take page_size (List.drop start table) ≠ [] := by
        apply List.ne_nil_of_length_pos
        rw [hblen]
        omega
      rw [if_neg hbne]
      rw [if_neg (show ¬ (none : Option Nat) = some 0 by simp)]
      rcases ht with rfl | rfl
      · rw [hblen, totalUpdate_none_some]
        by_cases hbig : start + page_size < table.length
        · rw [if_pos (show start + min page_size (table.length - start) < table.length
            by omega)]
          simp only []
          rw [if_neg (show ¬ table.length ≤ start + page_size by omega)]
          rw [← List.take_add]
          rw [ih (start + page_size) (some table.length) (reqs + 1) (Or.inr rfl)
            (fun _ => by omega) (by simp) (by omega)]
          have harith : offsetReqsFrom table.length page_size start none
              = offsetReqsFrom table.length page_size (start + page_size) (some table.length)
                + 1 := by
            unfold offsetReqsFrom
            rw [if_neg (by omega), if_neg (by omega), if_neg (by omega)]
            have e : table.length - start + page_size - 1
                = (table.length - (start + page_size) + page_size - 1) + page_size := by omega
            rw [e, Nat.add_div_right _ hps]
          rw [harith]
          have e2 : ∀ x : Nat, reqs + 1 + x = reqs + (x + 1) := fun x => by omega
          rw [e2]
        · rw [if_neg (show ¬ start + min page_size (table.length - start) < table.length
            by omega)]
          simp only []
          by_cases hlt : table.length - start < page_size
          · rw [if_pos (show min page_size (table.length - start) < page_size by omega)]
            have hT : List.take page_size (List.drop start table) = List.drop start table :=
              List.take_of_length_le (by simp; omega)
            rw [hT, List.take_append_drop]
            have hcnt : offsetReqsFrom table.length page_size start none = 1 := by
              unfold offsetReqsFrom
              rw [if_neg (by omega), if_pos hlt]
            rw [hcnt]
          · have heq : table.length - start = page_size := by omega
            rw [if_neg (show ¬ min page_size (table.length - start) < page_size by omega)]
            rw [← List.take_add]
            rw [ih (start + page_size) none (reqs + 1) (Or.inl rfl)
              (by simp) (fun _ => by omega) (by omega)]
            have h1 : offsetReqsFrom table.length page_size (start + page_size) none = 1 := by
              unfold offsetReqsFrom
              rw [if_pos (by omega)]
            have h2 : offsetReqsFrom table.length page_size start none = 2 := by
              unfold offsetReqsFrom
              rw [if_neg (by omega), if_neg (by omega), if_pos heq]
            rw [h1, h2]
      · have hs := hts rfl
        rw [totalUpdate_some]
        simp only []
        by_cases hend : table.length ≤ start + page_size
        · rw [if_pos hend]
          rw [← List.take_add, List.take_of_length_le (by omega)]
          have hcnt : offsetReqsFrom table.length page_size start (some table.length) = 1 :=
            Nat.div_eq_of_lt_le (by omega) (by omega)
          rw [hcnt]
        · rw [if_neg hend]
          rw [← List.take_add]
          rw [ih (start + page_size) (some table.length) (reqs + 1) (Or.inr rfl)
            (fun _ => by omega) (by simp) (by omega)]
          have harith : offsetReqsFrom table.length page_size start (some table.length)
              = offsetReqsFrom table.length page_size (start + page_size) (some table.length)
                + 1 := by
            unfold offsetReqsFrom
            have e : table.length - start + page_size - 1
                = (table.length - (start + page_size) + page_size - 1) + page_size := by omega
            rw [e, Nat.add_div_right _ hps]
          rw [harith]
          have e2 : ∀ x : Nat, reqs + 1 + x = reqs + (x + 1) := fun x => by omega
          rw [e2]

/-- C2: against an honest server over any table, offset mode (no `limit`)
requests `limit = page_size` at offset equal to the running total and stops
when a page is shorter than `page_size` or the running offset reaches the
server-reported total; it returns exactly the table (every row once, no
duplicates) in `offsetRequestCount` requests — in particular 3 requests for
a table of exactly 2,350 rows with `page_size = 1000`. -/
theorem fetch_rows_offset_spec (table : List Row) (page_size fuel : Nat)
    (hps : 0 < page_size) (hfuel : table.length + 2 ≤ fuel) :
    fetch_rows (listServer "id" table) page_size "id" false none fuel
      = some (table, offsetRequestCount table.length page_size) ∧
    (table.length = 2350 → page_size = 1000 →
      offsetRequestCount table.length page_size = 3) := by
  constructor
  · unfold fetch_rows offsetRequestCount
    have h0 := fetchLoop_offset table "id" (orderColumn "id") (orderIsDesc "id") page_size hps
      fuel 0 none 0 (Or.inl rfl) (by simp) (fun _ => Nat.zero_le _) (by omega)
    simpa using h0
  · intro h1 h2
    rw [h1, h2]
    decide

/-- Witness for `fetch_rows_offset_spec` at a concrete 2,350-row table. -/
theorem fetch_rows_offset_spec_witness :
    0 < 1000 ∧
      (List.replicate 2350 ([("id", (0 : Int))] : Row)).length + 2 ≤ 2352 ∧
      (fetch_rows (listServer "id" (List.replicate 2350 ([("id", (0 : Int))] : Row))) 1000
          "id" false none 2352
        = some (List.replicate 2350 ([("id", (0 : Int))] : Row),
            offsetRequestCount (List.replicate 2350 ([("id", (0 : Int))] : Row)).length 1000) ∧
      ((List.replicate 2350 ([("id", (0 : Int))] : Row)).length = 2350 → 1000 = 1000 →
        offsetRequestCount (List.replicate 2350 ([("id", (0 : Int))] : Row)).length 1000 = 3)) :=
  ⟨by decide, by rw [List.length_replicate],
    fetch_rows_offset_spec _ 1000 2352 (by decide) (by rw [List.length_replicate])⟩

/-- A row with `id = i` and ordering-column value `v = 1`. -/
def tiedRow (i : Int) : Row := [("id", i), ("v", 1)]

/-- Four rows all tied on the ordering column `"v"`. -/
def tiedTable : List Row := [tiedRow 0, tiedRow 1, tiedRow 2, tiedRow 3]

/-- C1 (evaluation at the failing input): keyset paging over a table whose
ordering column `"v"` has a run of ties spanning a page boundary loses the
tied rows after the boundary instead of falling back to offset mode.  With
`page_size = 3` and four rows all having `v = 1`, page 1 returns the first
3 rows and records `last_value = 1`; page 2 carries the strict filter
`v=gt.1`, which excludes the fourth tied row, so the page is empty and the
loop breaks after 2 requests with 3 of the 4 rows.  The tie-stall fallback
(`last_value == previous_last_value`) can never fire against a server that
honestly applies the strict keyset filter, because each non-empty filtered
page ends in a value strictly beyond the previous one. -/
theorem fetch_rows_keyset_ties_lose_rows :
    tiedTable.length = 4 ∧
      ∀ fuel, fetch_rows (listServer "v" tiedTable) 3 "v" true none (fuel + 2)
        = some ([tiedRow 0, tiedRow 1, tiedRow 2], 2) :=
  ⟨by decide, fun _ => rfl⟩

/-- The batch slices `rows_list[start : start + batch_size]` for
`start in range(0, len(rows_list), batch_size)` in `insert_rows`. -/
def batchSlices {α : Type} (batch_size : Nat) (rows : List α) : List (List α) :=
  if h : rows.isEmpty = true ∨ batch_size = 0 then []
  else rows.take batch_size :: batchSlices batch_size (rows.drop batch_size)
termination_by rows.length
decreasing_by
  rw [List.length_drop]
  have h1 : rows ≠ [] := fun hh => h (Or.inl (List.isEmpty_iff.mpr hh))
  have h2 : batch_size ≠ 0 := fun hh => h (Or.inr hh)
  have := List.length_pos.mpr h1
  omega

/-- Embedding of `insert_rows` from `supabase_rest.py`, modelled as the sequence of batch
payloads it POSTs, in order: no-op (`some []`, no request) on an empty
input; `none` models the `ValueError` that `range(0, n, 0)` raises when
`batch_size = 0`. -/
def insert_rows {α : Type} (rows : List α) (batch_size : Nat) : Option (List (List α)) :=
  if rows.isEmpty then some []
  else if batch_size = 0 then none
  else some (batchSlices batch_size rows)

lemma batchSlices_flatten {α : Type} (batch_size : Nat) (hbs : 0 < batch_size) :
    ∀ n (rows : List α), rows.length ≤ n → (batchSlices batch_size rows).flatten = rows := by
  intro n
  induction n with
  | zero =>
    intro rows h
    have hr : rows = [] := List.length_eq_zero.mp (by omega)
    rw [batchSlices, dif_pos (Or.inl (List.isEmpty_iff.mpr hr)), hr]
    rfl
  | succ n ih =>
    intro rows h
    rw [batchSlices]
    by_cases hr : rows = []
    · rw [dif_pos (Or.inl (List.isEmpty_iff.mpr hr)), hr]
      rfl
    · rw [dif_neg (by push_neg; exact ⟨by simpa using hr, by omega⟩)]
      simp only [List.flatten_cons]
      rw [ih (rows.drop batch_size) (by simp; omega)]
      exact List.take_append_drop batch_size rows

lemma batchSlices_le {α : Type} (batch_size : Nat) :
    ∀ n (rows : List α), rows.length ≤ n →
      ∀ b ∈ batchSlices batch_size rows, b.length ≤ batch_size := by
  intro n
  induction n with
  | zero =>
    intro rows h b hb
    have hr : rows = [] := List.length_eq_zero.mp (by omega)
    rw [batchSlices, dif_pos (Or.inl (List.isEmpty_iff.mpr hr))] at hb
    simp at hb
  | succ n ih =>
    intro rows h b hb
    rw [batchSlices] at hb
    split at hb
    · simp at hb
    · rcases List.mem_cons.mp hb with hb | hb
      · subst hb
        simp
      · exact ih (rows.drop batch_size) (by simp; omega) b hb

lemma batchSlices_1250 {α : Type} (rows : List α) (h : rows.length = 1250) :
    (batchSlices 500 rows).map List.length = [500, 500, 250] := by
  have hne0 : rows ≠ [] := by intro hh; rw [hh] at h; simp at h
  rw [batchSlices, dif_neg (by push_neg; exact ⟨by simpa using hne0, by omega⟩)]
  have hlen1 : (rows.drop 500).length = 750 := by simp [h]
  have hne1 : rows.drop 500 ≠ [] := by intro hh; rw [hh] at hlen1; simp at hlen1
  rw [batchSlices, dif_neg (by push_neg; exact ⟨by simpa using hne1, by omega⟩)]
  have hlen2 : ((rows.drop 500).drop 500).length = 250 := by simp [h]
  have hne2 : (rows.drop 500).drop 500 ≠ [] := by intro hh; rw [hh] at hlen2; simp at hlen2
  rw [batchSlices, dif_neg (by push_neg; exact ⟨by simpa using hne2, by omega⟩)]
  have hlen3 : (((rows.drop 500).drop 500).drop 500).length = 0 := by simp [h]
  have hnil3 : ((rows.drop 500).drop 500).drop 500 = [] := List.length_eq_zero.mp hlen3
  rw [batchSlices, dif_pos (Or.inl (List.isEmpty_iff.mpr hnil3))]
  simp [h]

/-- C8: `insert_rows` is a no-op on an empty input (no request is issued);
otherwise it splits the rows into consecutive batches of at most
`batch_size`, preserving the input order across batches (the concatenation
of the submitted batches is the input sequence); for 1,250 rows with
`batch_size = 500` it issues exactly 3 batch requests of sizes
500, 500, 250, in the original order. -/
theorem insert_rows_spec {α : Type} (rows : List α) (h1250 : rows.length = 1250) :
    insert_rows ([] : List α) 500 = some [] ∧
    (∀ (l : List α) (bs : Nat) (B : List (List α)), 0 < bs → insert_rows l bs = some B →
      B.flatten = l ∧ ∀ b ∈ B, b.length ≤ bs) ∧
    insert_rows rows 500 = some (batchSlices 500 rows) ∧
    (batchSlices 500 rows).map List.length = [500, 500, 250] ∧
    (batchSlices 500 rows).flatten = rows := by
  have hne0 : rows ≠ [] := by intro hh; rw [hh] at h1250; simp at h1250
  refine ⟨rfl, ?_, ?_, batchSlices_1250 rows h1250,
    batchSlices_flatten 500 (by omega) rows.length rows le_rfl⟩
  · intro l bs B hbs hB
    unfold insert_rows at hB
    by_cases hl : l.isEmpty
    · rw [if_pos hl] at hB
      injection hB with hB
      subst hB
      exact ⟨by simp [List.isEmpty_iff.mp hl], by simp⟩
    · rw [if_neg hl, if_neg (by omega)] at hB
      injection hB with hB
      subst hB
      exact ⟨batchSlices_flatten bs hbs l.length l le_rfl, batchSlices_le bs l.length l le_rfl⟩
  · unfold insert_rows
    rw [if_neg (by simpa using hne0), if_neg (by omega)]

/-- Witness for `insert_rows_spec` at a concrete 1,250-row input. -/
theorem insert_rows_spec_witness :
    (List.replicate 1250 (0 : Nat)).length = 1250 ∧
      (insert_rows ([] : List Nat) 500 = some [] ∧
        (∀ (l : List Nat) (bs : Nat) (B : List (List Nat)), 0 < bs →
          insert_rows l bs = some B → B.flatten = l ∧ ∀ b ∈ B, b.length ≤ bs) ∧
        insert_rows (List.replicate 1250 (0 : Nat)) 500
          = some (batchSlices 500 (List.replicate 1250 (0 : Nat))) ∧
        (batchSlices 500 (List.replicate 1250 (0 : Nat))).map List.length = [500, 500, 250] ∧
        (batchSlices 500 (List.replicate 1250 (0 : Nat))).flatten
          = List.replicate 1250 (0 : Nat)) :=
  ⟨by rw [List.length_replicate],
    insert_rows_spec (List.replicate 1250 (0 : Nat)) (by rw [List.length_replicate])⟩

/-- Embedding of `EmbeddingProvider._embed_mock` from `embedding.py`, with the
deterministic library functions abstracted as parameters: `sha` models
`int(hashlib.sha256(text.encode("utf-8")).hexdigest(), 16)` and
`draw seed i` models the `i`-th draw of `random.Random(seed).uniform(-1, 1)`
(`F` abstracts the float type).  The seed is `sha(text) % 2 ** 32` and each
vector lists `dimension` successive draws. -/
def embed_mock {F : Type} (dimension : Nat) (sha : String → Nat) (draw : Nat → Nat → F)
    (texts : List String) : List (List F) :=
  texts.map (fun text => (List.range dimension).map (fun i => draw (sha text % 2 ^ 32) i))

/-- C9: the mock embedding provider satisfies the Embedder contract: one
vector per input string, each of the configured dimension, and it is
deterministic — its output is a function of the input sequence and
configuration alone, and equal input strings (even at different positions)
receive equal vectors. -/
theorem embed_mock_contract {F : Type} (dimension : Nat) (sha : String → Nat)
    (draw : Nat → Nat → F) (texts : List String) (i j : Nat)
    (hij : texts[i]? = texts[j]?) :
    (embed_mock dimension sha draw texts).length = texts.length ∧
    (∀ v ∈ embed_mock dimension sha draw texts, v.length = dimension) ∧
    (embed_mock dimension sha draw texts)[i]? = (embed_mock dimension sha draw texts)[j]? ∧
    (∀ texts2, texts = texts2 →
      embed_mock dimension sha draw texts = embed_mock dimension sha draw texts2) := by
  refine ⟨by simp [embed_mock], ?_, ?_, ?_⟩
  · intro v hv
    simp only [embed_mock, List.mem_map] at hv
    obtain ⟨t, _, rfl⟩ := hv
    simp
  · simp [embed_mock, List.getElem?_map, hij]
  · rintro _ rfl
    rfl

/-- Witness for `embed_mock_contract` at a concrete configuration and input
with a repeated string. -/
theorem embed_mock_contract_witness :
    (["x", "y", "x"] : List String)[0]? = (["x", "y", "x"] : List String)[2]? ∧
      ((embed_mock 2 String.length (fun s i => s + i) ["x", "y", "x"]).length = 3 ∧
        (∀ v ∈ embed_mock 2 String.length (fun s i => s + i) ["x", "y", "x"], v.length = 2) ∧
        (embed_mock 2 String.length (fun s i => s + i) ["x", "y", "x"])[0]?
          = (embed_mock 2 String.length (fun s i => s + i) ["x", "y", "x"])[2]? ∧
        (∀ texts2, ["x", "y", "x"] = texts2 →
          embed_mock 2 String.length (fun s i => s + i) ["x", "y", "x"]
            = embed_mock 2 String.length (fun s i => s + i) texts2)) := by
  refine ⟨by decide, ?_⟩
  have h := embed_mock_contract 2 String.length (fun s i => s + i) ["x", "y", "x"] 0 2
    (by decide)
  have h3 : (["x", "y", "x"] : List String).length = 3 := by decide
  exact ⟨by rw [h.1, h3], h.2.1, h.2.2.1, h.2.2.2⟩

/-- Embedding of `SpeciesRow` from `pipeline.py`: all fields optional, as populated by
`load_species_rows` via `row.get(...)`. -/
structure SpeciesRow where
  id : Option String
  genus : Option String
  species : Option String
  code : Option String
  common_name : Option String
  family : Option String
  class_name : Option String
  tags : Option (List String)
  updated_at : Option String

/-- One conditional `parts.append(f"{label}{value}")` of
`build_species_text`: a Python-truthy field (present and non-empty)
contributes one line, an absent or empty field contributes nothing. -/
def optLine (label : String) : Option String → List String
  | none => []
  | some s => if s = "" then [] else [label ++ s]

/-- The `Tags:` line of `build_species_text`: present when `row.tags` is a
non-empty list. -/
def tagsLine : Option (List String) → List String
  | none => []
  | some ts => if ts = [] then [] else ["Tags: " ++ String.intercalate ", " ts]

/-- Embedding of `build_species_text` from `pipeline.py`. -/
def build_species_text (row : SpeciesRow) : String :=
  String.intercalate "\n"
    (["Species Profile"] ++ optLine "Genus: " row.genus ++ optLine "Species: " row.species
      ++ optLine "Code: " row.code ++ optLine "Common name: " row.common_name
      ++ optLine "Family: " row.family ++ optLine "Class: " row.class_name
      ++ tagsLine row.tags)

/-- Python `f"{x}"` for an optional string; `None` renders as `"None"`. -/
def pyStrOpt : Option String → String
  | none => "None"
  | some s => s

/-- One output row assembled by `ingest_species` for the
`species_embeddings` table (`E` abstracts the embedding vector type). -/
structure InsertedRow (E : Type) where
  species_id : Option String
  chunk_id : String
  content : String
  embedding : E
  source : String
  version : Option String

/-- The per-row accumulation loop of `ingest_species` from `pipeline.py`
(build text, chunk with policy `400/40`, embed, zip, assemble), with the
embedder abstracted as `embed` and instrumented with the list of embedding
calls made (one call per species row, as in the source).  `none` propagates
a diverging `chunk_text` call (impossible for the fixed `400/40` policy). -/
def ingest_species_model {E : Type} (embed : List String → List E) :
    List SpeciesRow → Option (List (InsertedRow E) × List (List String))
  | [] => some ([], [])
  | row :: rest =>
    match chunk_text (build_species_text row) ⟨400, 40⟩ with
    | none => none
    | some chunks =>
      let embeddings := embed chunks
      let newRows := (List.zip chunks embeddings).enum.map (fun p =>
        { species_id := row.id
          chunk_id := pyStrOpt row.id ++ ":" ++ toString p.1
          content := p.2.1
          embedding := p.2.2
          source := "canonical"
          version := row.updated_at : InsertedRow E })
      match ingest_species_model embed rest with
      | none => none
      | some (restRows, calls) => some (newRows ++ restRows, [chunks] ++ calls)

/-- The canonical record of the end-to-end scenario:
`{genus: "Quercus", species: "alba", code: "QUAL", tags: ["oak", "hardwood"]}`
with all other fields absent. -/
def quercusRow : SpeciesRow :=
  ⟨none, some "Quercus", some "alba", some "QUAL", none, none, none,
    some ["oak", "hardwood"], none⟩

/-- C5 (counterexample to the claim as stated): on the canonical record the
profile text is as specified, but the single chunk is NOT equal to the full
profile text — `chunk_text` rejoins words with single spaces, so the
newlines of the profile are replaced by spaces. -/
theorem species_profile_chunk_ne_text :
    build_species_text quercusRow
      = "Species Profile\nGenus: Quercus\nSpecies: alba\nCode: QUAL\nTags: oak, hardwood" ∧
    chunk_text (build_species_text quercusRow) ⟨400, 40⟩
      ≠ some [build_species_text quercusRow] := by
  constructor <;> decide

/-- C5 (amended): ingesting the canonical record
`{genus: "Quercus", species: "alba", code: "QUAL", tags: ["oak", "hardwood"]}`
(all other fields absent) produces the profile text
`"Species Profile\nGenus: Quercus\nSpecies: alba\nCode: QUAL\nTags: oak, hardwood"`
with absent/empty fields omitted rather than rendered as blank lines; with
the canonical `400/40` policy (window far larger than the 11-word profile)
chunking yields exactly one chunk — the profile text with its newlines
replaced by single spaces, since `chunk_text` rejoins words with `" "` —
one embedding call with exactly one input, and one inserted row whose
`chunk_id` (`"None:0"`, as the record has no `id`) ends in `":0"`. -/
theorem species_profile_ingest (E : Type) (embed : List String → List E) (e : E)
    (hembed :
      embed ["Species Profile Genus: Quercus Species: alba Code: QUAL Tags: oak, hardwood"]
        = [e]) :
    build_species_text quercusRow
      = "Species Profile\nGenus: Quercus\nSpecies: alba\nCode: QUAL\nTags: oak, hardwood" ∧
    chunk_text (build_species_text quercusRow) ⟨400, 40⟩
      = some ["Species Profile Genus: Quercus Species: alba Code: QUAL Tags: oak, hardwood"] ∧
    ingest_species_model embed [quercusRow]
      = some ([⟨none, "None:0",
          "Species Profile Genus: Quercus Species: alba Code: QUAL Tags: oak, hardwood", e,
          "canonical", none⟩],
        [["Species Profile Genus: Quercus Species: alba Code: QUAL Tags: oak, hardwood"]]) ∧
    "None:0" = "None" ++ ":0" := by
  refine ⟨by decide, by decide, ?_, by decide⟩
  rw [ingest_species_model,
    show chunk_text (build_species_text quercusRow) ⟨400, 40⟩
      = some ["Species Profile Genus: Quercus Species: alba Code: QUAL Tags: oak, hardwood"]
      from by decide]
  simp only []
  rw [hembed, show ingest_species_model embed ([] : List SpeciesRow) = some ([], []) from rfl]
  simp only []
  have ht : toString (0 : Nat) = "0" := rfl
  simp [quercusRow, pyStrOpt, ht]

/-- Witness for `species_profile_ingest` with a concrete embedder. -/
theorem species_profile_ingest_witness :
    ((fun ts => ts.map (fun _ => (0 : Nat)))
        ["Species Profile Genus: Quercus Species: alba Code: QUAL Tags: oak, hardwood"]
      = [0]) ∧
    (build_species_text quercusRow
      = "Species Profile\nGenus: Quercus\nSpecies: alba\nCode: QUAL\nTags: oak, hardwood" ∧
    chunk_text (build_species_text quercusRow) ⟨400, 40⟩
      = some ["Species Profile Genus: Quercus Species: alba Code: QUAL Tags: oak, hardwood"] ∧
    ingest_species_model (fun ts => ts.map (fun _ => (0 : Nat))) [quercusRow]
      = some ([⟨none, "None:0",
          "Species Profile Genus: Quercus Species: alba Code: QUAL Tags: oak, hardwood", 0,
          "canonical", none⟩],
        [["Species Profile Genus: Quercus Species: alba Code: QUAL Tags: oak, hardwood"]]) ∧
    "None:0" = "None" ++ ":0") :=
  ⟨rfl, species_profile_ingest Nat (fun ts => ts.map (fun _ => (0 : Nat))) 0 rfl⟩

lemma chunk_text_core (text : String) (config : ChunkingConfig)
    (ho : config.overlap < config.max_tokens) :
    ∃ chunks, chunk_text text config = some chunks ∧
      ∀ c ∈ chunks, c ≠ "" ∧ 1 ≤ (wordsOfStr c).length ∧
        (wordsOfStr c).length ≤ config.max_tokens := by
  by_cases h : pyWords text = []
  · exact ⟨[], chunk_text_empty _ _ h, by simp⟩
  · refine ⟨_, chunk_text_windows text config ho h, ?_⟩
    intro c hc
    simp only [List.mem_map] at hc
    obtain ⟨w, hw, rfl⟩ := hc
    obtain ⟨hgood, h1, h2⟩ := windows_props config (pyWords text) (pyWords_good text)
      (pyWords text).length 0 (by omega) w hw
    have hwne : w ≠ [] := by
      intro hcon; rw [hcon] at h1; simp at h1
    constructor
    · have hjne := (joinWords_facts w hgood hwne).1
      intro hcon
      exact hjne (congrArg String.data hcon)
    · rw [wordsOfStr_mk_joinWords w hgood]
      exact ⟨by omega, h2⟩

/-- C10: for every input text and every policy with
`0 ≤ overlap < max_tokens`, every string returned by `chunk_text` is
non-empty and its whitespace-split word count is at least 1 and at most
`max_tokens`; consequently every chunk row assembled by `ingest_species`
has non-empty `content`. -/
theorem chunk_text_chunks_bounded (text : String) (config : ChunkingConfig)
    (ho : config.overlap < config.max_tokens) :
    (∃ chunks, chunk_text text config = some chunks ∧
      ∀ c ∈ chunks, c ≠ "" ∧ 1 ≤ (wordsOfStr c).length ∧
        (wordsOfStr c).length ≤ config.max_tokens) ∧
    (∀ (E : Type) (embed : List String → List E) (rows : List SpeciesRow) out,
      ingest_species_model embed rows = some out → ∀ r ∈ out.1, r.content ≠ "") := by
  refine ⟨chunk_text_core text config ho, ?_⟩
  intro E embed rows
  induction rows with
  | nil =>
    intro out hout r hr
    rw [ingest_species_model] at hout
    injection hout with hout
    rw [← hout] at hr
    simp at hr
  | cons row rest ih =>
    intro out hout r hr
    rw [ingest_species_model] at hout
    cases hch : chunk_text (build_species_text row) ⟨400, 40⟩ with
    | none =>
      rw [hch] at hout
      simp at hout
    | some chunks =>
      rw [hch] at hout
      simp only [] at hout
      cases hrec : ingest_species_model embed rest with
      | none =>
        rw [hrec] at hout
        simp at hout
      | some pr =>
        rw [hrec] at hout
        simp only [] at hout
        injection hout with hout
        rw [← hout] at hr
        simp only [List.mem_append] at hr
        rcases hr with hr | hr
        · simp only [List.mem_map] at hr
          obtain ⟨p, hp, rfl⟩ := hr
          obtain ⟨cs, hcs, hbound⟩ :=
            chunk_text_core (build_species_text row) ⟨400, 40⟩ (by decide)
          rw [hch] at hcs
          injection hcs with hcs
          have hmem : p.2.1 ∈ chunks := by
            rw [List.enum_eq_zip_range] at hp
            have h2 := (List.of_mem_zip hp).2
            exact (List.of_mem_zip h2).1
          exact (hbound p.2.1 (hcs ▸ hmem)).1
        · exact ih pr hrec r hr

/-- Witness for `chunk_text_chunks_bounded` at a concrete text and policy. -/
theorem chunk_text_chunks_bounded_witness :
    (⟨3, 1⟩ : ChunkingConfig).overlap < (⟨3, 1⟩ : ChunkingConfig).max_tokens ∧
      ((∃ chunks, chunk_text "a b c d e" ⟨3, 1⟩ = some chunks ∧
        ∀ c ∈ chunks, c ≠ "" ∧ 1 ≤ (wordsOfStr c).length ∧
          (wordsOfStr c).length ≤ (⟨3, 1⟩ : ChunkingConfig).max_tokens) ∧
      (∀ (E : Type) (embed : List String → List E) (rows : List SpeciesRow) out,
        ingest_species_model embed rows = some out → ∀ r ∈ out.1, r.content ≠ "")) :=
  ⟨by decide, chunk_text_chunks_bounded "a b c d e" ⟨3, 1⟩ (by decide)⟩
